import Mathlib

/-!
Verification development for the CodeParse repository
(file-selection and document-assembly pipeline).

The definitions below are a shallow embedding of the TypeScript source:
* `src/utils/fileFilters.ts`   — extension classifier, tree builder
* `src/components/CodebaseParser.tsx` — upload filtering, selection state,
  generation precondition
* `src/services/txtBuilder.ts` — TXT exporter
* `src/services/pdfBuilder.ts` — PDF exporter (text-layout portion)

JS strings are modelled as Lean `String` (a structure over `List Char`);
JS `Set<string>` is modelled as a duplicate-free `List String` in insertion
order; promise rejection of a lazy reader is modelled as `Except String`
carrying the rejection message.
-/

namespace CodeParse

/-! ### Extension classifier (`src/utils/fileFilters.ts`, `isCodeFile`) -/

/-- The fixed allow-list of extensions, copied from `codeExtensions`. -/
def codeExtensions : List String := [
  ".js", ".jsx", ".ts", ".tsx", ".py", ".java", ".cpp", ".c", ".h", ".hpp",
  ".cs", ".php", ".rb", ".go", ".rs", ".swift", ".kt", ".scala", ".r", ".sql",
  ".html", ".css", ".scss", ".sass", ".less", ".json", ".xml", ".yaml",
  ".yml", ".md", ".txt", ".sh", ".bat", ".ps1", ".dockerfile", ".gitignore",
  ".env", ".config", ".ini", ".conf", ".lock"]

/-- JS `s.toLowerCase()`, modelled characterwise. -/
def toLowerStr (s : String) : String := String.mk (s.data.map Char.toLower)

/-- JS `s.endsWith(suffix)`. -/
def endsWithStr (s suffix : String) : Bool := suffix.data.isSuffixOf s.data

/-- JS `s.includes('.')` (single-character needle). -/
def containsDot (s : String) : Bool := s.data.contains '.'

/-- `isCodeFile` from `fileFilters.ts`:
lowercased name ends with a listed extension, or contains no dot. -/
def isCodeFile (fileName : String) : Bool :=
  codeExtensions.any (fun ext => endsWithStr (toLowerStr fileName) ext) ||
  !containsDot fileName

/-! ### Upload filtering (`CodebaseParser.tsx`, `scanFolder` loop body) -/

/-- JS `ig?.ignores(relPath)`: `false` when no ignore engine was built. -/
def igTest (ig : Option (String → Bool)) (relPath : String) : Bool :=
  match ig with
  | some m => m relPath
  | none => false

/-- The per-file keep decision of `scanFolder`
(`if (ig?.ignores(relPath)) continue; if (!isCodeFile(f.name)) continue;`). -/
def scanKeep (ig : Option (String → Bool)) (name relPath : String) : Bool :=
  if igTest ig relPath then false
  else if !isCodeFile name then false
  else true

/-! ### Path splitting and joining -/

/-- Accumulator version of JS `String.prototype.split('/')`. -/
def splitSlashAux : List Char → List Char → List String
  | [], acc => [String.mk acc.reverse]
  | c :: cs, acc =>
    if c = '/' then String.mk acc.reverse :: splitSlashAux cs []
    else splitSlashAux cs (c :: acc)

/-- JS `path.split('/')`. -/
def splitSlash (s : String) : List String := splitSlashAux s.data []

/-- JS `Array.prototype.join('/')`. -/
def joinSlash : List String → String
  | [] => ""
  | [s] => s
  | s :: rest => s ++ "/" ++ joinSlash rest

/-! ### Tree builder (`src/utils/fileFilters.ts`, `buildTree`) -/

/-- `TreeNode` from `fileFilters.ts`: discriminated union of folder/file. -/
inductive TreeNode where
  | folder (name : String) (path : String) (children : List TreeNode)
  | file (name : String) (path : String) (size : Nat)
deriving Repr

/-- The `name` field of a node. -/
def TreeNode.name : TreeNode → String
  | .folder n _ _ => n
  | .file n _ _ => n

/-- `node.type === 'folder'`. -/
def TreeNode.isFolder : TreeNode → Bool
  | .folder .. => true
  | .file .. => false

/-- Input record shape `{ path, size }` (interface `FileLike`). -/
structure FileLike where
  path : String
  size : Nat
deriving Repr, DecidableEq

/-- Transform a folder node's children in place (identity on files). -/
def withChildren (n : TreeNode) (f : List TreeNode → List TreeNode) : TreeNode :=
  match n with
  | .folder nm p cs => .folder nm p (f cs)
  | other => other

/-- Replace the first node named `seg` (a folder, at every use site) by the
same folder with its children transformed — the functional rendering of the
in-place mutation `currentLevel = folder.children` followed by pushes. -/
def replaceFirstMatch (seg : String) (f : List TreeNode → List TreeNode) :
    List TreeNode → List TreeNode
  | [] => []
  | n :: ns =>
    if n.name == seg then withChildren n f :: ns
    else n :: replaceFirstMatch seg f ns

/-- Whether `currentLevel.find(n => n.name === segment)` yields a folder. -/
def findIsFolder (nodes : List TreeNode) (seg : String) : Bool :=
  match nodes.find? (fun n => n.name == seg) with
  | some (.folder ..) => true
  | _ => false

/-- One record's walk of `buildTree`'s `segments.forEach` body.
`segs` are the remaining segments, `pre` the segments already walked,
`fullPath`/`size` the record's data. -/
def insertNode (segs : List String) (pre : List String) (fullPath : String)
    (size : Nat) (nodes : List TreeNode) : List TreeNode :=
  match segs with
  | [] => nodes
  | [seg] =>
    if nodes.any (fun n => n.name == seg) then nodes
    else nodes ++ [.file seg fullPath size]
  | seg :: rest =>
    if findIsFolder nodes seg then
      replaceFirstMatch seg (insertNode rest (pre ++ [seg]) fullPath size) nodes
    else
      nodes ++ [.folder seg (joinSlash (pre ++ [seg]))
        (insertNode rest (pre ++ [seg]) fullPath size [])]

/-- Processing of one record of the `for (const file of files)` loop. -/
def insertRecord (nodes : List TreeNode) (r : FileLike) : List TreeNode :=
  insertNode (splitSlash r.path) [] r.path r.size nodes

/-- The unsorted forest accumulated by `buildTree`'s main loop. -/
def buildTreeRaw (files : List FileLike) : List TreeNode :=
  files.foldl insertRecord []

/-- Lexicographic code-point comparison of character lists (`<=`). -/
def charListLeB : List Char → List Char → Bool
  | [], _ => true
  | _ :: _, [] => false
  | c :: cs, d :: ds =>
    if c.toNat = d.toNat then charListLeB cs ds else decide (c.toNat < d.toNat)

/-- `a.localeCompare(b) <= 0`, modelled as code-point comparison. -/
def strLeB (a b : String) : Bool := charListLeB a.data b.data

/-- The comparator of `sortNodes` as a boolean "may come before" relation:
`cmp(a,b) <= 0` for `cmp = (a,b) => a.type !== b.type ? (folder first) :
a.name.localeCompare(b.name)`. -/
def nleB (a b : TreeNode) : Bool :=
  if a.isFolder != b.isFolder then a.isFolder
  else strLeB a.name b.name

/-- Propositional form of the comparator. -/
def NLE (a b : TreeNode) : Prop := nleB a b = true

instance : DecidableRel NLE := fun a b =>
  inferInstanceAs (Decidable (nleB a b = true))

mutual
/-- `sortNodes` applied under one node (recursive sibling-list sort;
JS `Array.prototype.sort` is stable, modelled by stable insertion sort). -/
def sortTree : TreeNode → TreeNode
  | .file n p s => .file n p s
  | .folder n p cs => .folder n p (List.insertionSort NLE (sortForest cs))

/-- `sortNodes` applied to each node of a list (before sorting the list). -/
def sortForest : List TreeNode → List TreeNode
  | [] => []
  | t :: ts => sortTree t :: sortForest ts
end

/-- `buildTree` from `fileFilters.ts`: accumulate all records, then
recursively sort every sibling list (folders first, then by name). -/
def buildTree (files : List FileLike) : List TreeNode :=
  List.insertionSort NLE (sortForest (buildTreeRaw files))

mutual
/-- `collectFilePaths` from `fileFilters.ts`. -/
def collectFilePaths : TreeNode → List String
  | .file _ p _ => [p]
  | .folder _ _ cs => collectForest cs

/-- Concatenation of `collectFilePaths` over a node list
(`children.flatMap(collectFilePaths)`, and the root-level concatenation). -/
def collectForest : List TreeNode → List String
  | [] => []
  | t :: ts => collectFilePaths t ++ collectForest ts
end

/-! ### Selection state (`CodebaseParser.tsx`)

A JS `Set<string>` is modelled as a duplicate-free `List String` kept in
insertion order: `has` is membership, `delete` removes the element,
`add` appends when absent. -/

/-- JS `set.has(p)`. -/
def setHas (s : List String) (p : String) : Bool := s.contains p

/-- JS `set.delete(p)` (the resulting set). -/
def setDelete (s : List String) (p : String) : List String := s.erase p

/-- JS `set.add(p)` (the resulting set). -/
def setAdd (s : List String) (p : String) : List String :=
  if s.contains p then s else s ++ [p]

/-- `toggleFile` from `CodebaseParser.tsx`:
`if (next.has(path)) next.delete(path); else next.add(path)`. -/
def toggleFile (sel : List String) (path : String) : List String :=
  if setHas sel path then setDelete sel path else setAdd sel path

/-- `toggleFolder` from `CodebaseParser.tsx`: insert or remove each path. -/
def toggleFolder (sel : List String) (paths : List String) (select : Bool) :
    List String :=
  paths.foldl (fun next p => if select then setAdd next p else setDelete next p) sel

/-! ### TXT exporter (`src/services/txtBuilder.ts`) -/

/-- `FileEntry` from `src/types`: the lazy reader `getText` returns either
the text or, on promise rejection, the rejection's message (`Except.error`). -/
structure FileEntry where
  path : String
  size : Nat
  getText : Unit → Except String String

/-- The content actually used by `buildTxt` for one file:
`await file.getText().catch(err => "[Error reading file: " + message + "]")`. -/
def readContent (file : FileEntry) : String :=
  match file.getText () with
  | Except.ok s => s
  | Except.error msg => "[Error reading file: " ++ msg ++ "]"

/-- The fenced block pushed for one file:
the template literal of three backticks, path, newline, content, newline,
three backticks, then a blank line. -/
def txtBlock (file : FileEntry) : String :=
  "```" ++ file.path ++ "\n" ++ readContent file ++ "\n```\n\n"

/-- `buildTxt`: the `text` field of the result (`chunks.join('')`). -/
def buildTxt (files : List FileEntry) : String :=
  String.join (files.map txtBlock)

/-! ### PDF exporter, text-layout portion (`src/services/pdfBuilder.ts`)

Page geometry, the running page header and the cursor arithmetic place the
lines; they do not change which text lines are produced, so the model below
captures the sequence of `drawText` payloads per file (the file path
sub-header followed by the wrapped content lines). -/

/-- `hardWrap`'s `for (let i = 0; i < text.length; i += width)` loop,
chunking `width` characters at a time.  The source loop diverges for
`width = 0` (never reached: `maxCharsPerLine >= 1`); the `0` case here
returns `[]`. -/
def hardWrapLoop : Nat → List Char → List (List Char)
  | _, [] => []
  | 0, _ :: _ => []
  | w + 1, c :: cs => ((c :: cs).take (w + 1)) :: hardWrapLoop (w + 1) (cs.drop w)
termination_by _ cs => cs.length
decreasing_by simp; omega

/-- `hardWrap` from `pdfBuilder.ts`. -/
def hardWrap (text : String) (width : Nat) : List String :=
  if text.length ≤ width then [text]
  else (hardWrapLoop width text.data).map String.mk

/-- `raw.split(/\r?\n/)` — both `\r\n` and bare `\n` break lines; a bare
`\r` does not. -/
def splitLinesAux : List Char → List Char → List String
  | [], acc => [String.mk acc.reverse]
  | '\r' :: '\n' :: cs, acc => String.mk acc.reverse :: splitLinesAux cs []
  | '\n' :: cs, acc => String.mk acc.reverse :: splitLinesAux cs []
  | c :: cs, acc => splitLinesAux cs (c :: acc)

/-- Logical lines of a file's content. -/
def splitLines (s : String) : List String := splitLinesAux s.data []

/-- Visual lines of one logical line:
`hardWrap(logicalLine === '' ? ' ' : logicalLine, maxCharsPerLine)`. -/
def visualLines (logicalLine : String) (maxCharsPerLine : Nat) : List String :=
  hardWrap (if logicalLine = "" then " " else logicalLine) maxCharsPerLine

/-- The content used by `buildPdf` for one file (same `catch` substitution
as the TXT builder, `pdfBuilder.ts` lines 60–65). -/
def readContentPdf (file : FileEntry) : String :=
  match file.getText () with
  | Except.ok s => s
  | Except.error msg => "[Error reading file: " ++ msg ++ "]"

/-- The `drawText` payloads produced for one file: its path sub-header,
then every visual line of its (possibly substituted) content. -/
def pdfFileLines (file : FileEntry) (maxCharsPerLine : Nat) : List String :=
  file.path ::
    (splitLines (readContentPdf file)).foldr
      (fun logicalLine acc => visualLines logicalLine maxCharsPerLine ++ acc) []

/-- The `drawText` payloads of the whole export, in input order
(running page headers excluded — they are pagination, not content). -/
def buildPdfLines (files : List FileEntry) (maxCharsPerLine : Nat) : List String :=
  files.foldr (fun f acc => pdfFileLines f maxCharsPerLine ++ acc) []

/-! ### Generation precondition (`CodebaseParser.tsx`) -/

/-- `MAX_EXPORT_SIZE = 50 * 1024 * 1024`. -/
def MAX_EXPORT_SIZE : Nat := 50 * 1024 * 1024

/-- `getSelectedSize()`: sum of sizes of the records whose path is
selected. -/
def getSelectedSize (files : List FileEntry) (selectedFiles : List String) : Nat :=
  ((files.filter (fun f => setHas selectedFiles f.path)).map (·.size)).foldl
    (· + ·) 0

/-- The two output artifacts of one generate invocation (TXT text and the
PDF text model). -/
structure GenOutputs where
  txtText : String
  pdfLines : List String

/-- `generateDocuments`: returns `none` (no work started, no blobs) when
`exportTooLarge || selectedFiles.size === 0`, otherwise builds both
documents from the selected entries.  `maxCharsPerLine` parametrizes the
PDF text model (derived from font metrics in the source). -/
def generateDocuments (files : List FileEntry) (selectedFiles : List String)
    (maxCharsPerLine : Nat) : Option GenOutputs :=
  if getSelectedSize files selectedFiles > MAX_EXPORT_SIZE
      || selectedFiles.length == 0 then
    none
  else
    let entries := files.filter (fun f => setHas selectedFiles f.path)
    some ⟨buildTxt entries, buildPdfLines entries maxCharsPerLine⟩

/-! ### Helper lemmas -/

theorem strJoin_foldl (l : List String) (a : String) :
    l.foldl (· ++ ·) a = a ++ l.foldl (· ++ ·) "" := by
  induction l generalizing a with
  | nil => simp [String.append_empty]
  | cons s l ih =>
    simp only [List.foldl_cons]
    rw [ih (a ++ s), ih ("" ++ s), String.empty_append, String.append_assoc]

theorem strJoin_cons (s : String) (l : List String) :
    String.join (s :: l) = s ++ String.join l := by
  show List.foldl (· ++ ·) ("" ++ s) l = _
  rw [String.empty_append, strJoin_foldl]
  rfl

theorem buildTxt_cons (e : FileEntry) (rest : List FileEntry) :
    buildTxt (e :: rest) = txtBlock e ++ buildTxt rest := by
  simp only [buildTxt, List.map_cons, strJoin_cons]

theorem buildPdfLines_cons (e : FileEntry) (rest : List FileEntry) (w : Nat) :
    buildPdfLines (e :: rest) w = pdfFileLines e w ++ buildPdfLines rest w := rfl

/-! ### Claims C1, C3, C4, C5, C6, C8 -/

/-- C1: the claim says that when an ignore-rule engine exists, whether a
file is kept depends only on the ignore-rule match of its relative path and
never additionally on the Extension Classifier.  The code disagrees: with
an engine present (`some`) that matches nothing, `photo.png` is dropped by
`isCodeFile` while `a.ts` is kept, so keeping does depend on the name; the
source's own comments ("fallback extension filter", extensions "treated as
code when no .gitignore is supplied") and README mark this as a slip. -/
theorem C1_filters_combined_eval :
    igTest (some (fun _ => false)) "photo.png" = false ∧
    isCodeFile "photo.png" = false ∧
    scanKeep (some (fun _ => false)) "photo.png" "photo.png" = false ∧
    scanKeep (some (fun _ => false)) "a.ts" "a.ts" = true := by decide

/-- C3: in `buildTree` the final-segment lookup matches any sibling by name
regardless of kind: on records `["a/b", "a"]` the later record `"a"`
collides with the folder `"a"`, no File node is produced for it, and its
path never appears among the collected leaf paths. -/
theorem C3_final_segment_leaf_dropped :
    collectForest (buildTree [⟨"a/b", 1⟩, ⟨"a", 2⟩]) = ["a/b"] ∧
    "a" ∉ collectForest (buildTree [⟨"a/b", 1⟩, ⟨"a", 2⟩]) := by decide

/-- C2 (counterexample): on input `["a/b", "a"]` the distinct input path
`"a"` does not appear among the collected leaf paths of the built tree, so
the round-trip claim fails as stated. -/
theorem C2_roundtrip_counterexample :
    "a" ∈ ([⟨"a/b", 1⟩, ⟨"a", 2⟩] : List FileLike).map FileLike.path ∧
    "a" ∉ collectForest (buildTree [⟨"a/b", 1⟩, ⟨"a", 2⟩]) := by decide

/-- C4 (counterexample): `toggleFile` performs no known-file check, so for
a path that is not the path of any file in the record list (here the list
holds only `a.txt`) and is absent from the selection, toggling inserts it —
the selection set changes. -/
theorem C4_no_op_counterexample :
    "ghost.txt" ∉ ([⟨"a.txt", 1⟩] : List FileLike).map FileLike.path ∧
    toggleFile [] "ghost.txt" ≠ [] := by decide

/-- C4 (amended): `toggleFile(path)` removes the path if present and
inserts it otherwise, unconditionally — there is no known-file check, so an
unknown absent path is inserted rather than left alone. -/
theorem C4_toggle_unconditional (sel : List String) (p : String) :
    (setHas sel p = true → toggleFile sel p = setDelete sel p) ∧
    (setHas sel p = false →
      toggleFile sel p = sel ++ [p] ∧ p ∈ toggleFile sel p) := by
  constructor
  · intro h; simp [toggleFile, h]
  · intro h
    have : toggleFile sel p = sel ++ [p] := by
      simp [toggleFile, h, setAdd, setHas] at *
      simp [h]
    exact ⟨this, by simp [this]⟩

/-- C4 witness: the amended behavior at a concrete unknown path. -/
theorem C4_toggle_unconditional_witness :
    setHas ["x"] "ghost.txt" = false ∧
    toggleFile ["x"] "ghost.txt" = ["x"] ++ ["ghost.txt"] ∧
    "ghost.txt" ∈ toggleFile ["x"] "ghost.txt" := by
  have h : setHas ["x"] "ghost.txt" = false := by decide
  exact ⟨h, (C4_toggle_unconditional ["x"] "ghost.txt").2 h⟩

/-- C5: the TXT text is the in-order concatenation of one fenced block per
entry — three backticks, the path, a newline, the (possibly substituted)
content, a newline, closing backticks, then a blank line — and on the
single entry `{path: "a.txt", getText: () => "hello"}` it equals
`"```a.txt\nhello\n```\n\n"`. -/
theorem C5_txt_fenced_concatenation :
    (∀ (e : FileEntry) (rest : List FileEntry),
      buildTxt (e :: rest) =
        ("```" ++ e.path ++ "\n" ++ readContent e ++ "\n```\n\n") ++ buildTxt rest) ∧
    buildTxt [] = "" ∧
    buildTxt [⟨"a.txt", 5, fun _ => Except.ok "hello"⟩] = "```a.txt\nhello\n```\n\n" := by
  refine ⟨fun e rest => buildTxt_cons e rest, rfl, ?_⟩
  decide

/-- C6: when an entry's lazy reader fails with message `msg`, both
exporters substitute the placeholder `[Error reading file: msg]` as that
entry's content and continue with the remaining entries (the export of the
tail is unchanged); in particular the message "disk error" yields content
`[Error reading file: disk error]`. -/
theorem C6_read_failure_placeholder (e : FileEntry) (msg : String)
    (rest : List FileEntry) (w : Nat) (h : e.getText () = Except.error msg) :
    readContent e = "[Error reading file: " ++ msg ++ "]" ∧
    readContentPdf e = "[Error reading file: " ++ msg ++ "]" ∧
    buildTxt (e :: rest) =
      ("```" ++ e.path ++ "\n" ++ ("[Error reading file: " ++ msg ++ "]") ++
        "\n```\n\n") ++ buildTxt rest ∧
    buildPdfLines (e :: rest) w = pdfFileLines e w ++ buildPdfLines rest w := by
  have h1 : readContent e = "[Error reading file: " ++ msg ++ "]" := by
    simp [readContent, h]
  refine ⟨h1, by simp [readContentPdf, h], ?_, rfl⟩
  rw [buildTxt_cons, txtBlock, h1]

/-- C6 witness: a reader rejecting with "disk error". -/
theorem C6_read_failure_placeholder_witness :
    (FileEntry.mk "f.txt" 3 (fun _ => Except.error "disk error")).getText ()
      = Except.error "disk error" ∧
    readContent (FileEntry.mk "f.txt" 3 (fun _ => Except.error "disk error"))
      = "[Error reading file: " ++ "disk error" ++ "]" := by
  exact ⟨rfl,
    (C6_read_failure_placeholder
      (FileEntry.mk "f.txt" 3 (fun _ => Except.error "disk error"))
      "disk error" [] 80 rfl).1⟩

/-- C8: generation is blocked whenever the cumulative selected size
strictly exceeds the 50 MB cap — `generateDocuments` returns `none`
(no TXT, no PDF) — while a size at or below the cap with a nonempty
selection yields both outputs. -/
theorem C8_size_cap_blocks_generation (files : List FileEntry)
    (sel : List String) (w : Nat) :
    (getSelectedSize files sel > MAX_EXPORT_SIZE →
      generateDocuments files sel w = none) ∧
    (getSelectedSize files sel ≤ MAX_EXPORT_SIZE → sel ≠ [] →
      ∃ out, generateDocuments files sel w = some out) := by
  constructor
  · intro h
    simp [generateDocuments, h]
  · intro h hs
    have h1 : ¬ getSelectedSize files sel > MAX_EXPORT_SIZE := by omega
    have h2 : sel.length ≠ 0 := by simpa using hs
    simp [generateDocuments, h1, h2]

/-- C8 witness: one selected 52 428 801-byte file (strictly over the cap)
blocks generation; one selected small file generates. -/
theorem C8_size_cap_witness :
    getSelectedSize [⟨"big.txt", 52428801, fun _ => Except.ok ""⟩] ["big.txt"]
      > MAX_EXPORT_SIZE ∧
    generateDocuments [⟨"big.txt", 52428801, fun _ => Except.ok ""⟩] ["big.txt"] 80
      = none ∧
    getSelectedSize [⟨"a.txt", 5, fun _ => Except.ok "hello"⟩] ["a.txt"]
      ≤ MAX_EXPORT_SIZE ∧
    (∃ out, generateDocuments [⟨"a.txt", 5, fun _ => Except.ok "hello"⟩] ["a.txt"] 80
      = some out) := by
  have hbig :
      getSelectedSize [⟨"big.txt", 52428801, fun _ => Except.ok ""⟩] ["big.txt"]
        > MAX_EXPORT_SIZE := by decide
  have hsmall :
      getSelectedSize [⟨"a.txt", 5, fun _ => Except.ok "hello"⟩] ["a.txt"]
        ≤ MAX_EXPORT_SIZE := by decide
  exact ⟨hbig,
    (C8_size_cap_blocks_generation _ _ 80).1 hbig,
    hsmall,
    (C8_size_cap_blocks_generation _ _ 80).2 hsmall (by decide)⟩

/-! ### Hard-wrap lemmas (C10, C7) -/

theorem hardWrapLoop_spec :
    ∀ (n w : Nat) (cs : List Char), cs.length ≤ n → cs ≠ [] →
      hardWrapLoop (w + 1) cs ≠ [] ∧
      (hardWrapLoop (w + 1) cs).flatten = cs ∧
      (∀ ch ∈ (hardWrapLoop (w + 1) cs).dropLast, ch.length = w + 1) ∧
      (∀ h : hardWrapLoop (w + 1) cs ≠ [],
        1 ≤ ((hardWrapLoop (w + 1) cs).getLast h).length ∧
        ((hardWrapLoop (w + 1) cs).getLast h).length ≤ w + 1) := by
  intro n
  induction n with
  | zero =>
    intro w cs hlen hne
    cases cs with
    | nil => exact absurd rfl hne
    | cons c cs' => simp at hlen
  | succ n ih =>
    intro w cs hlen hne
    cases cs with
    | nil => exact absurd rfl hne
    | cons c cs' =>
      rw [hardWrapLoop]
      by_cases hrest : cs'.drop w = []
      · have hlen' : cs'.length ≤ w := by
          simpa using List.drop_eq_nil_iff.mp hrest
        have htake : (c :: cs').take (w + 1) = c :: cs' :=
          List.take_of_length_le (by simp; omega)
        rw [hrest, hardWrapLoop, htake]
        refine ⟨by simp, by simp, by simp, ?_⟩
        intro h
        rw [List.getLast_singleton]
        refine ⟨by simp, by simp; omega⟩
      · have hlen2 : (cs'.drop w).length ≤ n := by
          simp at hlen ⊢; omega
        obtain ⟨ihne, ihflat, ihdrop, ihlast⟩ := ih w (cs'.drop w) hlen2 hrest
        have hlong : ¬ cs'.length ≤ w := fun hc =>
          hrest (List.drop_eq_nil_iff.mpr (by simpa using hc))
        have htake : ((c :: cs').take (w + 1)).length = w + 1 := by
          simp; omega
        refine ⟨by simp, ?_, ?_, ?_⟩
        · rw [List.flatten_cons, ihflat, ← List.drop_succ_cons,
            List.take_append_drop]
        · intro ch hch
          rw [List.dropLast_cons_of_ne_nil ihne] at hch
          rcases List.mem_cons.mp hch with h | h
          · rw [h]; exact htake
          · exact ihdrop ch h
        · intro h
          rw [List.getLast_cons ihne]
          exact ihlast ihne

theorem string_ne_empty_data {s : String} (hs : s ≠ "") : s.data ≠ [] := by
  intro h
  apply hs
  cases s with
  | mk d => exact congrArg String.mk h

theorem string_length_pos {s : String} (hs : s ≠ "") : 1 ≤ s.length := by
  have := string_ne_empty_data hs
  cases s with
  | mk d =>
    cases d with
    | nil => simp at this
    | cons c cs => simp [String.length]

theorem strJoin_map_mk :
    ∀ L : List (List Char), String.join (L.map String.mk) = String.mk L.flatten := by
  intro L
  induction L with
  | nil => rfl
  | cons x L ih =>
    rw [List.map_cons, strJoin_cons, ih]
    rfl

theorem string_mk_data (s : String) : String.mk s.data = s := by
  cases s
  rfl

/-- Full behavior of `hardWrap s w` for nonempty `s` and `w ≥ 1`:
the chunks are nonempty, concatenate back to `s`, all chunks except the
last have length exactly `w`, and the last has length in `[1, w]`. -/
theorem hardWrap_spec (s : String) (w : Nat) (hw : 1 ≤ w) (hs : s ≠ "") :
    hardWrap s w ≠ [] ∧
    String.join (hardWrap s w) = s ∧
    (∀ c ∈ (hardWrap s w).dropLast, c.length = w) ∧
    (∀ h : hardWrap s w ≠ [],
      1 ≤ ((hardWrap s w).getLast h).length ∧
      ((hardWrap s w).getLast h).length ≤ w) := by
  obtain ⟨w', rfl⟩ : ∃ w', w = w' + 1 := ⟨w - 1, by omega⟩
  rw [hardWrap]
  by_cases hshort : s.length ≤ w' + 1
  · rw [if_pos hshort]
    have hj : String.join [s] = s := by
      rw [strJoin_cons]
      show s ++ "" = s
      exact String.append_empty s
    refine ⟨by simp, hj, by simp, ?_⟩
    intro h
    rw [List.getLast_singleton]
    exact ⟨string_length_pos hs, hshort⟩
  · rw [if_neg hshort]
    have hdata : s.data ≠ [] := string_ne_empty_data hs
    obtain ⟨hne, hflat, hdrop, hlast⟩ :=
      hardWrapLoop_spec s.data.length w' s.data (le_refl _) hdata
    refine ⟨by simpa using hne, ?_, ?_, ?_⟩
    · rw [strJoin_map_mk, hflat, string_mk_data]
    · intro c hc
      rw [← List.map_dropLast] at hc
      obtain ⟨ch, hch, rfl⟩ := List.mem_map.mp hc
      simpa using hdrop ch hch
    · intro h
      rw [List.getLast_map]
      simpa using hlast hne

/-- C10: `hardWrap` preserves content — for nonempty `s` and `w ≥ 1` the
chunks concatenate back to `s`, every chunk but the last has length
exactly `w`, and the last chunk's length is between 1 and `w`. -/
theorem C10_hardWrap_preserves_content (s : String) (w : Nat)
    (hs : s ≠ "") (hw : 1 ≤ w) :
    String.join (hardWrap s w) = s ∧
    (∀ c ∈ (hardWrap s w).dropLast, c.length = w) ∧
    (∀ h : hardWrap s w ≠ [],
      1 ≤ ((hardWrap s w).getLast h).length ∧
      ((hardWrap s w).getLast h).length ≤ w) := by
  obtain ⟨_, h1, h2, h3⟩ := hardWrap_spec s w hw hs
  exact ⟨h1, h2, h3⟩

/-- C10 witness: `hardWrap "abcde" 2` at a concrete input. -/
theorem C10_hardWrap_preserves_content_witness :
    ("abcde" : String) ≠ "" ∧ 1 ≤ 2 ∧
    String.join (hardWrap "abcde" 2) = "abcde" := by
  have hs : ("abcde" : String) ≠ "" := by decide
  exact ⟨hs, by omega,
    (C10_hardWrap_preserves_content "abcde" 2 hs (by omega)).1⟩

theorem hardWrapLoop_length :
    ∀ (n w : Nat) (cs : List Char), cs.length ≤ n →
      (hardWrapLoop (w + 1) cs).length = (cs.length + w) / (w + 1) := by
  intro n
  induction n with
  | zero =>
    intro w cs hlen
    cases cs with
    | nil => simp [hardWrapLoop, Nat.div_eq_of_lt]
    | cons c cs' => simp at hlen
  | succ n ih =>
    intro w cs hlen
    cases cs with
    | nil => simp [hardWrapLoop, Nat.div_eq_of_lt]
    | cons c cs' =>
      rw [hardWrapLoop]
      by_cases hrest : cs'.length ≤ w
      · rw [List.drop_eq_nil_iff.mpr (by simpa using hrest), hardWrapLoop]
        have : (cs'.length + 1 + w) / (w + 1) = 1 := by
          apply Nat.div_eq_of_lt_le
          · omega
          · omega
        simp [this]
      · have hlen2 : (cs'.drop w).length ≤ n := by simp at hlen ⊢; omega
        rw [List.length_cons, ih w (cs'.drop w) hlen2, List.length_drop]
        simp only [List.length_cons]
        have heq : cs'.length + 1 + w = (cs'.length - w + w) + (w + 1) := by omega
        rw [heq, Nat.add_div_right _ (Nat.succ_pos w)]

/-- C7: in the PDF layout, a logical line longer than `maxCharsPerLine` is
hard-split into chunks all of length exactly `maxCharsPerLine` except a
final remainder chunk of length in `[1, maxCharsPerLine]` that together
concatenate back to the line; an empty logical line yields exactly one
blank visual line; and a 500-character line at width 80 yields exactly 7
visual lines. -/
theorem C7_pdf_hard_split :
    (∀ (line : String) (w : Nat), 1 ≤ w → w < line.length →
      String.join (visualLines line w) = line ∧
      (∀ c ∈ (visualLines line w).dropLast, c.length = w) ∧
      (∀ h : visualLines line w ≠ [],
        1 ≤ ((visualLines line w).getLast h).length ∧
        ((visualLines line w).getLast h).length ≤ w)) ∧
    (∀ w : Nat, 1 ≤ w → visualLines "" w = [" "]) ∧
    (visualLines (String.mk (List.replicate 500 'x')) 80).length = 7 := by
  refine ⟨?_, ?_, ?_⟩
  · intro line w hw hlen
    have hne : line ≠ "" := by
      intro h
      rw [h] at hlen
      have h0 : ("" : String).length = 0 := rfl
      omega
    rw [visualLines, if_neg hne]
    exact C10_hardWrap_preserves_content line w hne hw
  · intro w hw
    have h1 : (" " : String).length = 1 := rfl
    rw [visualLines, if_pos rfl, hardWrap, if_pos (h1 ▸ hw)]
  · have hdata : (String.mk (List.replicate 500 'x')).data = List.replicate 500 'x' := rfl
    have hlen500 : (String.mk (List.replicate 500 'x')).length = 500 := by
      show (List.replicate 500 'x').length = 500
      rw [List.length_replicate]
    have hne : String.mk (List.replicate 500 'x') ≠ "" := by
      intro h
      have h2 := congrArg String.length h
      rw [hlen500] at h2
      exact absurd h2 (by decide)
    rw [visualLines, if_neg hne, hardWrap, if_neg (by rw [hlen500]; omega)]
    rw [List.length_map]
    have h80 : (80 : Nat) = 79 + 1 := rfl
    rw [h80, hardWrapLoop_length 500 79 _
      (by rw [hdata, List.length_replicate]), hdata, List.length_replicate]

/-! ### Sibling ordering (C9) -/

theorem charListLeB_total :
    ∀ a b : List Char, charListLeB a b = true ∨ charListLeB b a = true := by
  intro a
  induction a with
  | nil => intro b; left; rfl
  | cons c cs ih =>
    intro b
    cases b with
    | nil => right; rfl
    | cons d ds =>
      by_cases h : c.toNat = d.toNat
      · rcases ih ds with h1 | h1
        · left; simp [charListLeB, h, h1]
        · right; simp [charListLeB, h.symm, h1]
      · by_cases hlt : c.toNat < d.toNat
        · left; simp [charListLeB, h, hlt]
        · right
          have h2 : ¬ d.toNat = c.toNat := fun he => h he.symm
          have h3 : d.toNat < c.toNat := by omega
          simp [charListLeB, h2, h3]

theorem charListLeB_trans :
    ∀ a b c : List Char, charListLeB a b = true → charListLeB b c = true →
      charListLeB a c = true := by
  intro a
  induction a with
  | nil => intro b c _ _; rfl
  | cons x xs ih =>
    intro b c hab hbc
    cases b with
    | nil => simp [charListLeB] at hab
    | cons y ys =>
      cases c with
      | nil => simp [charListLeB] at hbc
      | cons z zs =>
        simp only [charListLeB] at hab hbc ⊢
        by_cases hxy : x.toNat = y.toNat <;> by_cases hyz : y.toNat = z.toNat
        · rw [if_pos hxy] at hab
          rw [if_pos hyz] at hbc
          rw [if_pos (hxy.trans hyz)]
          exact ih ys zs hab hbc
        · rw [if_neg hyz] at hbc
          have h1 : y.toNat < z.toNat := by simpa using hbc
          have h2 : ¬ x.toNat = z.toNat := by omega
          rw [if_neg h2]
          simp; omega
        · rw [if_neg hxy] at hab
          have h1 : x.toNat < y.toNat := by simpa using hab
          have h2 : ¬ x.toNat = z.toNat := by omega
          rw [if_neg h2]
          simp; omega
        · rw [if_neg hxy] at hab
          rw [if_neg hyz] at hbc
          have h1 : x.toNat < y.toNat := by simpa using hab
          have h2 : y.toNat < z.toNat := by simpa using hbc
          have h3 : ¬ x.toNat = z.toNat := by omega
          rw [if_neg h3]
          simp; omega

theorem strLeB_total (a b : String) : strLeB a b = true ∨ strLeB b a = true :=
  charListLeB_total a.data b.data

theorem strLeB_trans {a b c : String} (h1 : strLeB a b = true)
    (h2 : strLeB b c = true) : strLeB a c = true :=
  charListLeB_trans a.data b.data c.data h1 h2

instance : IsTotal TreeNode NLE where
  total a b := by
    simp only [NLE, nleB]
    cases ha : a.isFolder <;> cases hb : b.isFolder <;> simp
    · exact strLeB_total a.name b.name
    · exact strLeB_total a.name b.name

instance : IsTrans TreeNode NLE where
  trans a b c hab hbc := by
    simp only [NLE, nleB] at hab hbc ⊢
    cases ha : a.isFolder <;> cases hb : b.isFolder <;> cases hc : c.isFolder <;>
      simp_all
    · exact strLeB_trans hab hbc
    · exact strLeB_trans hab hbc

/-- The claim's per-pair sibling invariant: a File never precedes a Folder,
and same-kind siblings are in (modelled) `localeCompare` order. -/
def siblingOrder (a b : TreeNode) : Prop :=
  (a.isFolder = false → b.isFolder = false) ∧
  (a.isFolder = b.isFolder → strLeB a.name b.name = true)

theorem nle_imp_siblingOrder : ∀ {a b : TreeNode}, NLE a b → siblingOrder a b := by
  intro a b h
  simp only [NLE, nleB] at h
  constructor
  · intro hfa
    by_contra hfb
    have hfb' : b.isFolder = true := by
      cases hbb : b.isFolder
      · exact absurd hbb hfb
      · rfl
    rw [hfa, hfb'] at h
    simp at h
  · intro heq
    rw [heq] at h
    simp at h
    exact h

/-- The claim's invariant, recursively at every depth. -/
inductive SortedTree : TreeNode → Prop where
  | file (n p : String) (s : Nat) : SortedTree (.file n p s)
  | folder (n p : String) (cs : List TreeNode)
      (hpw : cs.Pairwise siblingOrder)
      (hch : ∀ c ∈ cs, SortedTree c) : SortedTree (.folder n p cs)

theorem sortForest_eq_map : ∀ cs : List TreeNode, sortForest cs = cs.map sortTree
  | [] => rfl
  | t :: ts => by rw [sortForest, List.map_cons, sortForest_eq_map ts]

theorem sortTree_sortedTree :
    ∀ (k : Nat) (t : TreeNode), sizeOf t ≤ k → SortedTree (sortTree t) := by
  intro k
  induction k with
  | zero =>
    intro t h
    exfalso
    cases t <;> simp at h
  | succ k ih =>
    intro t h
    cases t with
    | file n p s => rw [sortTree]; exact SortedTree.file n p s
    | folder n p cs =>
      rw [sortTree]
      refine SortedTree.folder n p _ ?_ ?_
      · exact (List.sorted_insertionSort NLE (sortForest cs)).imp
          (fun hr => nle_imp_siblingOrder hr)
      · intro c hc
        rw [List.mem_insertionSort, sortForest_eq_map, List.mem_map] at hc
        obtain ⟨c', hc', rfl⟩ := hc
        apply ih
        have h1 := List.sizeOf_lt_of_mem hc'
        have h2 : sizeOf (TreeNode.folder n p cs) =
            1 + sizeOf n + sizeOf p + sizeOf cs := by simp
        omega

/-- C9: in every tree produced by `build`, every sibling list has all
Folder nodes before all File nodes and each same-kind group in lexical
name order, recursively at every depth. -/
theorem C9_sibling_order_invariant (files : List FileLike) :
    (buildTree files).Pairwise siblingOrder ∧
    ∀ n ∈ buildTree files, SortedTree n := by
  constructor
  · rw [buildTree]
    exact (List.sorted_insertionSort NLE _).imp
      (fun hr => nle_imp_siblingOrder hr)
  · intro n hn
    rw [buildTree, List.mem_insertionSort, sortForest_eq_map, List.mem_map] at hn
    obtain ⟨t, _, rfl⟩ := hn
    exact sortTree_sortedTree (sizeOf t) t (le_refl _)

/-- C7 witness: wrapping a 3-character line at width 2. -/
theorem C7_pdf_hard_split_witness :
    1 ≤ 2 ∧ 2 < ("abc" : String).length ∧
    String.join (visualLines "abc" 2) = "abc" := by
  have h2 : 2 < ("abc" : String).length := by decide
  exact ⟨by omega, h2, (C7_pdf_hard_split.1 "abc" 2 (by omega) h2).1⟩

/-! ### Path splitting infrastructure (C2) -/

theorem splitSlashAux_ne_nil : ∀ (cs acc : List Char), splitSlashAux cs acc ≠ [] := by
  intro cs
  induction cs with
  | nil => intro acc; simp [splitSlashAux]
  | cons c cs ih =>
    intro acc
    rw [splitSlashAux]
    split
    · simp
    · exact ih _

theorem splitSlash_ne_nil (s : String) : splitSlash s ≠ [] :=
  splitSlashAux_ne_nil _ _

theorem joinSlash_cons_of_ne_nil (s : String) {l : List String} (h : l ≠ []) :
    joinSlash (s :: l) = s ++ "/" ++ joinSlash l := by
  cases l with
  | nil => exact absurd rfl h
  | cons a l' => rfl

theorem joinSlash_splitSlashAux :
    ∀ (cs acc : List Char),
      joinSlash (splitSlashAux cs acc) = String.mk (acc.reverse ++ cs) := by
  intro cs
  induction cs with
  | nil => intro acc; simp [splitSlashAux, joinSlash]
  | cons c cs ih =>
    intro acc
    rw [splitSlashAux]
    by_cases h : c = '/'
    · rw [if_pos h,
        joinSlash_cons_of_ne_nil _ (splitSlashAux_ne_nil cs []), ih []]
      show String.mk (acc.reverse ++ ['/'] ++ cs) = _
      rw [h]
      simp
    · rw [if_neg h, ih (c :: acc)]
      simp

theorem joinSlash_splitSlash (s : String) : joinSlash (splitSlash s) = s := by
  rw [splitSlash, joinSlash_splitSlashAux]
  simp [string_mk_data]

theorem splitSlash_injective {p q : String} (h : splitSlash p = splitSlash q) :
    p = q := by
  rw [← joinSlash_splitSlash p, ← joinSlash_splitSlash q, h]

/-- `splitSlash p` is a strict leading-segment subpath of `splitSlash q`
(p names a strict ancestor position of q). -/
def SegLt (p q : String) : Prop :=
  ∃ t : List String, t ≠ [] ∧ splitSlash q = splitSlash p ++ t

/-- Boolean test for a strict leading-segment subpath of segment lists. -/
def listBelow : List String → List String → Bool
  | [], [] => false
  | [], _ :: _ => true
  | _ :: _, [] => false
  | a :: as, b :: bs => a == b && listBelow as bs

/-- Boolean form of `SegLt`. -/
def segBelow (p q : String) : Bool := listBelow (splitSlash p) (splitSlash q)

theorem listBelow_iff : ∀ (as bs : List String),
    listBelow as bs = true ↔ ∃ t, t ≠ [] ∧ bs = as ++ t := by
  intro as
  induction as with
  | nil =>
    intro bs
    cases bs with
    | nil => simp [listBelow]
    | cons b bs' =>
      simp only [listBelow, List.nil_append, true_iff]
      exact ⟨b :: bs', by simp, rfl⟩
  | cons a as ih =>
    intro bs
    cases bs with
    | nil =>
      rw [listBelow]
      constructor
      · intro h; exact absurd h (by simp)
      · rintro ⟨t, ht, he⟩
        exact absurd he.symm (List.cons_ne_nil _ _)
    | cons b bs' =>
      rw [listBelow, Bool.and_eq_true, beq_iff_eq, ih]
      constructor
      · rintro ⟨rfl, t, ht, rfl⟩
        exact ⟨t, ht, rfl⟩
      · rintro ⟨t, ht, he⟩
        rw [List.cons_append] at he
        injection he with h1 h2
        exact ⟨h1.symm, t, ht, h2⟩

theorem segBelow_iff (p q : String) : segBelow p q = true ↔ SegLt p q :=
  listBelow_iff (splitSlash p) (splitSlash q)

theorem segBelow_false_iff (p q : String) : segBelow p q = false ↔ ¬ SegLt p q := by
  rw [← segBelow_iff]
  cases segBelow p q <;> simp

/-! ### Collected-leaf lemmas (C2) -/

theorem collectForest_append :
    ∀ (l1 l2 : List TreeNode),
      collectForest (l1 ++ l2) = collectForest l1 ++ collectForest l2 := by
  intro l1 l2
  induction l1 with
  | nil => rfl
  | cons t ts ih =>
    rw [List.cons_append, collectForest, collectForest, ih, List.append_assoc]

theorem mem_collectForest {q : String} : ∀ {nodes : List TreeNode},
    q ∈ collectForest nodes ↔ ∃ c ∈ nodes, q ∈ collectFilePaths c := by
  intro nodes
  induction nodes with
  | nil => simp [collectForest]
  | cons t ts ih =>
    rw [collectForest, List.mem_append, ih]
    constructor
    · rintro (h | ⟨c, hc, hq⟩)
      · exact ⟨t, List.mem_cons_self t ts, h⟩
      · exact ⟨c, List.mem_cons_of_mem t hc, hq⟩
    · rintro ⟨c, hc, hq⟩
      rcases List.mem_cons.mp hc with rfl | hc'
      · exact Or.inl hq
      · exact Or.inr ⟨c, hc', hq⟩

/-! ### Well-formed forests (C2)

Structural invariant maintained by `buildTree` on prefix-free inputs: at
walked-segment position `pre`, sibling names are distinct, a file's path
splits as `pre ++ [name]`, and folders are nonempty and recursively
well-formed one segment deeper. -/

inductive WFNode : List String → TreeNode → Prop where
  | file (pre : List String) (nm p : String) (sz : Nat)
      (hp : splitSlash p = pre ++ [nm]) : WFNode pre (.file nm p sz)
  | folder (pre : List String) (nm fp : String) (cs : List TreeNode)
      (hne : cs ≠ [])
      (hnames : (cs.map TreeNode.name).Nodup)
      (hch : ∀ c ∈ cs, WFNode (pre ++ [nm]) c) : WFNode pre (.folder nm fp cs)

def WFForest (pre : List String) (nodes : List TreeNode) : Prop :=
  (nodes.map TreeNode.name).Nodup ∧ ∀ c ∈ nodes, WFNode pre c

theorem leaf_seg {pre : List String} {c : TreeNode} (h : WFNode pre c) :
    ∀ q ∈ collectFilePaths c, ∃ tail, splitSlash q = pre ++ c.name :: tail := by
  induction h with
  | file pre nm p sz hp =>
    intro q hq
    rw [collectFilePaths, List.mem_singleton] at hq
    subst hq
    exact ⟨[], by rw [hp]; rfl⟩
  | folder pre nm fp cs hne hnames hch ih =>
    intro q hq
    rw [collectFilePaths] at hq
    obtain ⟨c', hc', hq'⟩ := mem_collectForest.mp hq
    obtain ⟨tail, ht⟩ := ih c' hc' q hq'
    refine ⟨c'.name :: tail, ?_⟩
    rw [ht]
    simp [TreeNode.name]

theorem leaf_exists {pre : List String} {c : TreeNode} (h : WFNode pre c) :
    ∃ q, q ∈ collectFilePaths c := by
  induction h with
  | file pre nm p sz hp => exact ⟨p, by simp [collectFilePaths]⟩
  | folder pre nm fp cs hne hnames hch ih =>
    obtain ⟨c', hc'⟩ := List.exists_mem_of_ne_nil cs hne
    obtain ⟨q, hq⟩ := ih c' hc'
    exact ⟨q, by rw [collectFilePaths]; exact mem_collectForest.mpr ⟨c', hc', hq⟩⟩

theorem find_name_of_nodup :
    ∀ {nodes : List TreeNode} {c : TreeNode} {seg : String},
      (nodes.map TreeNode.name).Nodup → c ∈ nodes → c.name = seg →
      nodes.find? (fun n => n.name == seg) = some c := by
  intro nodes
  induction nodes with
  | nil => intro c seg _ h _; simp at h
  | cons n ns ih =>
    intro c seg hnd hc hname
    rw [List.map_cons, List.nodup_cons] at hnd
    rw [List.find?_cons]
    rcases List.mem_cons.mp hc with rfl | hc'
    · rw [show (c.name == seg) = true by simp [hname]]
    · have hn : (n.name == seg) = false := by
        rw [beq_eq_false_iff_ne]
        intro he
        exact hnd.1 (he ▸ hname ▸ List.mem_map_of_mem TreeNode.name hc')
      rw [hn]
      exact ih hnd.2 hc' hname

theorem findIsFolder_cons_of_ne {n : TreeNode} {seg : String}
    (h : (n.name == seg) = false) (ns : List TreeNode) :
    findIsFolder (n :: ns) seg = findIsFolder ns seg := by
  rw [findIsFolder, findIsFolder, List.find?_cons, h]

theorem replaceFirstMatch_map_name (seg : String)
    (f : List TreeNode → List TreeNode) :
    ∀ nodes : List TreeNode,
      (replaceFirstMatch seg f nodes).map TreeNode.name =
        nodes.map TreeNode.name := by
  intro nodes
  induction nodes with
  | nil => rfl
  | cons n ns ih =>
    rw [replaceFirstMatch]
    by_cases h : (n.name == seg) = true
    · rw [if_pos h]
      cases n with
      | folder nm fp cs => simp [withChildren, TreeNode.name]
      | file nm fp szf => rfl
    · rw [if_neg h]
      rw [List.map_cons, List.map_cons, ih]

/-- Side condition for inserting path `p` into a forest: `p` is neither a
strict ancestor nor a strict descendant (segment-wise) of any leaf already
collected there. -/
def PrefixCond (p : String) (nodes : List TreeNode) : Prop :=
  ∀ q ∈ collectForest nodes, ¬ SegLt p q ∧ ¬ SegLt q p

/-- Effect of one insertion on the collected leaves: either the path was
already a leaf and the forest is unchanged, or the leaf multiset gains
exactly `p`. -/
def InsOutcome (p : String) (nodes result : List TreeNode) : Prop :=
  (p ∈ collectForest nodes ∧ result = nodes) ∨
  (p ∉ collectForest nodes ∧
    List.Perm (collectForest result) (collectForest nodes ++ [p]))

theorem prefixCond_of_sub {p : String} {l1 l2 : List TreeNode}
    (hsub : ∀ q, q ∈ collectForest l1 → q ∈ collectForest l2)
    (h : PrefixCond p l2) : PrefixCond p l1 :=
  fun q hq => h q (hsub q hq)

/-- Final-segment step (`idx === segments.length - 1` branch). -/
theorem insert_final_spec (seg : String) (pre : List String) (p : String)
    (sz : Nat) (nodes : List TreeNode)
    (hp : splitSlash p = pre ++ [seg])
    (hwf : WFForest pre nodes) (hpc : PrefixCond p nodes) :
    WFForest pre (insertNode [seg] pre p sz nodes) ∧
    InsOutcome p nodes (insertNode [seg] pre p sz nodes) := by
  rw [insertNode]
  by_cases hany : nodes.any (fun n => n.name == seg) = true
  · rw [if_pos hany]
    obtain ⟨b, hb, hbseg⟩ := List.any_eq_true.mp hany
    have hbname : b.name = seg := by simpa using hbseg
    have hmem : p ∈ collectForest nodes := by
      cases b with
      | file nm q szb =>
        have hq : splitSlash q = pre ++ [nm] := by
          cases hwf.2 _ hb with
          | file _ _ _ _ h => exact h
        have : q = p := splitSlash_injective (by
          rw [hq, hp]
          simp [TreeNode.name] at hbname
          rw [hbname])
        subst this
        exact mem_collectForest.mpr ⟨_, hb, by simp [collectFilePaths]⟩
      | folder nm fp cs =>
        exfalso
        cases hwf.2 _ hb with
        | folder _ _ _ _ hne hnames hch =>
          obtain ⟨c', hc'⟩ := List.exists_mem_of_ne_nil cs hne
          obtain ⟨q, hq⟩ := leaf_exists (hch c' hc')
          obtain ⟨tail, ht⟩ := leaf_seg (hch c' hc') q hq
          have hqmem : q ∈ collectForest nodes :=
            mem_collectForest.mpr ⟨_, hb, by
              rw [collectFilePaths]
              exact mem_collectForest.mpr ⟨c', hc', hq⟩⟩
          refine (hpc q hqmem).1 ⟨c'.name :: tail, by simp, ?_⟩
          rw [ht, hp]
          simp [TreeNode.name] at hbname
          rw [hbname]
    exact ⟨hwf, Or.inl ⟨hmem, rfl⟩⟩
  · rw [if_neg hany]
    have hnoseg : ∀ c ∈ nodes, c.name ≠ seg := by
      intro c hc he
      exact hany (List.any_eq_true.mpr ⟨c, hc, by simp [he]⟩)
    have hnot : p ∉ collectForest nodes := by
      intro hmem
      obtain ⟨c, hc, hpc'⟩ := mem_collectForest.mp hmem
      obtain ⟨tail, ht⟩ := leaf_seg (hwf.2 c hc) p hpc'
      rw [hp] at ht
      have := List.append_cancel_left ht
      injection this with h1 h2
      exact hnoseg c hc h1.symm
    refine ⟨⟨?_, ?_⟩, Or.inr ⟨hnot, ?_⟩⟩
    · rw [List.map_append]
      rw [List.nodup_append]
      refine ⟨hwf.1, by simp, ?_⟩
      intro x hx hx'
      simp [TreeNode.name] at hx'
      obtain ⟨c, hc, hcn⟩ := List.mem_map.mp hx
      exact hnoseg c hc (hcn.trans hx')
    · intro c hc
      rcases List.mem_append.mp hc with hc' | hc'
      · exact hwf.2 c hc'
      · rw [List.mem_singleton] at hc'
        subst hc'
        exact WFNode.file pre seg p sz hp
    · rw [collectForest_append]
      have h1 : collectForest [TreeNode.file seg p sz] = [p] := rfl
      rw [h1]

/-- Folder-descend step through `replaceFirstMatch`, parameterized by the
induction hypothesis for the remaining segments. -/
theorem replace_spec (seg : String) (rest pre : List String) (p : String)
    (sz : Nat)
    (hp : splitSlash p = pre ++ seg :: rest)
    (IH : ∀ cs : List TreeNode, WFForest (pre ++ [seg]) cs → PrefixCond p cs →
      WFForest (pre ++ [seg]) (insertNode rest (pre ++ [seg]) p sz cs) ∧
      InsOutcome p cs (insertNode rest (pre ++ [seg]) p sz cs)) :
    ∀ nodes : List TreeNode, WFForest pre nodes → PrefixCond p nodes →
      findIsFolder nodes seg = true →
      WFForest pre
        (replaceFirstMatch seg (insertNode rest (pre ++ [seg]) p sz) nodes) ∧
      InsOutcome p nodes
        (replaceFirstMatch seg (insertNode rest (pre ++ [seg]) p sz) nodes) := by
  intro nodes
  induction nodes with
  | nil => intro _ _ hff; simp [findIsFolder] at hff
  | cons n ns ihn =>
    intro hwf hpc hff
    rw [replaceFirstMatch]
    by_cases hn : (n.name == seg) = true
    · rw [if_pos hn]
      cases n with
      | file nm fq szf =>
        exfalso
        rw [findIsFolder, List.find?_cons, hn] at hff
        simp at hff
      | folder nm fp cs =>
        have hnm : nm = seg := by simpa [TreeNode.name] using hn
        subst hnm
        obtain ⟨hnd, hall⟩ := hwf
        have hwfn := hall _ (List.mem_cons_self _ _)
        have hcssub : ∀ q, q ∈ collectForest cs →
            q ∈ collectForest (TreeNode.folder nm fp cs :: ns) := by
          intro q hq
          rw [collectForest, List.mem_append]
          exact Or.inl (by rw [collectFilePaths]; exact hq)
        cases hwfn with
        | folder _ _ _ _ hne hnames hch =>
        obtain ⟨hwf', hout⟩ := IH cs ⟨hnames, hch⟩ (prefixCond_of_sub hcssub hpc)
        rw [show withChildren (TreeNode.folder nm fp cs)
            (insertNode rest (pre ++ [nm]) p sz) =
          TreeNode.folder nm fp (insertNode rest (pre ++ [nm]) p sz cs) from rfl]
        rcases hout with ⟨hmem, heq⟩ | ⟨hnmem, hperm⟩
        · rw [heq]
          exact ⟨⟨hnd, hall⟩, Or.inl ⟨hcssub p hmem, rfl⟩⟩
        · have hne' : insertNode rest (pre ++ [nm]) p sz cs ≠ [] := by
            intro h0
            have hl := hperm.length_eq
            rw [h0] at hl
            simp [collectForest] at hl
          constructor
          · constructor
            · simpa [TreeNode.name] using hnd
            · intro c hc
              rcases List.mem_cons.mp hc with rfl | hc'
              · exact WFNode.folder pre nm fp _ hne' hwf'.1 hwf'.2
              · exact hall c (List.mem_cons_of_mem _ hc')
          · right
            constructor
            · rw [collectForest, List.mem_append]
              rintro (hm | hm)
              · rw [collectFilePaths] at hm
                exact hnmem hm
              · obtain ⟨c, hc, hpcol⟩ := mem_collectForest.mp hm
                obtain ⟨tail, ht⟩ :=
                  leaf_seg (hall c (List.mem_cons_of_mem _ hc)) p hpcol
                rw [hp] at ht
                have h2 := List.append_cancel_left ht
                injection h2 with h3 _
                rw [List.map_cons, List.nodup_cons] at hnd
                refine hnd.1 ?_
                have hmm : c.name ∈ ns.map TreeNode.name :=
                  List.mem_map_of_mem TreeNode.name hc
                rw [← h3] at hmm
                exact hmm
            · simp only [collectForest, collectFilePaths]
              refine List.Perm.trans
                (hperm.append_right (collectForest ns)) ?_
              rw [List.append_assoc, List.append_assoc]
              exact List.Perm.append_left _ List.perm_append_comm
    · rw [if_neg hn]
      have hnf : (n.name == seg) = false := by
        cases h : (n.name == seg)
        · rfl
        · exact absurd h hn
      obtain ⟨hnd, hall⟩ := hwf
      rw [List.map_cons, List.nodup_cons] at hnd
      have hff' : findIsFolder ns seg = true := by
        rw [findIsFolder_cons_of_ne hnf] at hff
        exact hff
      have hsub : ∀ q, q ∈ collectForest ns →
          q ∈ collectForest (n :: ns) := by
        intro q hq
        rw [collectForest, List.mem_append]
        exact Or.inr hq
      obtain ⟨⟨hnd', hall'⟩, hout⟩ :=
        ihn ⟨hnd.2, fun c hc => hall c (List.mem_cons_of_mem _ hc)⟩
          (prefixCond_of_sub hsub hpc) hff'
      have hnames : (replaceFirstMatch seg
          (insertNode rest (pre ++ [seg]) p sz) ns).map TreeNode.name =
          ns.map TreeNode.name := replaceFirstMatch_map_name seg _ ns
      constructor
      · constructor
        · rw [List.map_cons, List.nodup_cons, hnames]
          exact hnd
        · intro c hc
          rcases List.mem_cons.mp hc with rfl | hc'
          · exact hall c (List.mem_cons_self _ _)
          · exact hall' c hc'
      · rcases hout with ⟨hmem, heq⟩ | ⟨hnmem, hperm⟩
        · rw [heq]
          exact Or.inl ⟨hsub p hmem, rfl⟩
        · right
          constructor
          · rw [collectForest, List.mem_append]
            rintro (hm | hm)
            · obtain ⟨tail, ht⟩ :=
                leaf_seg (hall n (List.mem_cons_self _ _)) p hm
              rw [hp] at ht
              have h2 := List.append_cancel_left ht
              injection h2 with h3 _
              exact (beq_eq_false_iff_ne.mp hnf) h3.symm
            · exact hnmem hm
          · simp only [collectForest]
            refine List.Perm.trans
              (List.Perm.append_left (collectFilePaths n) hperm) ?_
            rw [← List.append_assoc]

/-- Folder-descend step creating a fresh folder (`findIsFolder` false). -/
theorem insert_descend_new_spec (seg : String) (rest pre : List String)
    (p : String) (sz : Nat)
    (hrest : rest ≠ [])
    (hp : splitSlash p = pre ++ seg :: rest)
    (IH : ∀ cs : List TreeNode, WFForest (pre ++ [seg]) cs → PrefixCond p cs →
      WFForest (pre ++ [seg]) (insertNode rest (pre ++ [seg]) p sz cs) ∧
      InsOutcome p cs (insertNode rest (pre ++ [seg]) p sz cs))
    (nodes : List TreeNode) (hwf : WFForest pre nodes)
    (hpc : PrefixCond p nodes) (hff : findIsFolder nodes seg = false) :
    WFForest pre (nodes ++ [TreeNode.folder seg (joinSlash (pre ++ [seg]))
        (insertNode rest (pre ++ [seg]) p sz [])]) ∧
    InsOutcome p nodes (nodes ++ [TreeNode.folder seg (joinSlash (pre ++ [seg]))
        (insertNode rest (pre ++ [seg]) p sz [])]) := by
  obtain ⟨hK, hKout⟩ := IH [] ⟨by simp, by simp⟩
    (by intro q hq; exact absurd hq (List.not_mem_nil q))
  rcases hKout with ⟨hm, _⟩ | ⟨_, hperm⟩
  · exact absurd hm (List.not_mem_nil p)
  have hperm' : List.Perm
      (collectForest (insertNode rest (pre ++ [seg]) p sz [])) [p] := by
    have h0 : collectForest ([] : List TreeNode) = [] := rfl
    rw [h0, List.nil_append] at hperm
    exact hperm
  have hnoseg : ∀ c ∈ nodes, c.name ≠ seg := by
    intro c hc he
    cases c with
    | folder nm fp cs =>
      have hfind : nodes.find? (fun n => n.name == seg) =
          some (TreeNode.folder nm fp cs) :=
        find_name_of_nodup hwf.1 hc he
      rw [findIsFolder, hfind] at hff
      simp at hff
    | file nm fq szf =>
      have hq : splitSlash fq = pre ++ [nm] := by
        cases hwf.2 _ hc with
        | file _ _ _ _ h => exact h
      have hqmem : fq ∈ collectForest nodes :=
        mem_collectForest.mpr ⟨_, hc, by simp [collectFilePaths]⟩
      refine (hpc fq hqmem).2 ⟨rest, hrest, ?_⟩
      rw [hp, hq]
      simp [TreeNode.name] at he
      rw [he]
      simp
  have hKne : insertNode rest (pre ++ [seg]) p sz [] ≠ [] := by
    intro h0
    have hl := hperm'.length_eq
    rw [h0] at hl
    simp [collectForest] at hl
  constructor
  · constructor
    · rw [List.map_append, List.nodup_append]
      refine ⟨hwf.1, by simp, ?_⟩
      intro x hx hx'
      simp [TreeNode.name] at hx'
      obtain ⟨c, hc, hcn⟩ := List.mem_map.mp hx
      exact hnoseg c hc (hcn.trans hx')
    · intro c hc
      rcases List.mem_append.mp hc with hc' | hc'
      · exact hwf.2 c hc'
      · rw [List.mem_singleton] at hc'
        subst hc'
        exact WFNode.folder pre seg _ _ hKne hK.1 hK.2
  · right
    constructor
    · intro hm
      obtain ⟨c, hc, hpcol⟩ := mem_collectForest.mp hm
      obtain ⟨tail, ht⟩ := leaf_seg (hwf.2 c hc) p hpcol
      rw [hp] at ht
      have h2 := List.append_cancel_left ht
      injection h2 with h3 _
      exact hnoseg c hc h3.symm
    · rw [collectForest_append]
      have h1 : collectForest [TreeNode.folder seg (joinSlash (pre ++ [seg]))
          (insertNode rest (pre ++ [seg]) p sz [])] =
          collectForest (insertNode rest (pre ++ [seg]) p sz []) := by
        simp [collectForest, collectFilePaths]
      rw [h1]
      exact List.Perm.append_left _ hperm'

/-- Full specification of one record insertion into a well-formed forest
whose leaves are segment-prefix-independent of the inserted path. -/
theorem insertNode_spec :
    ∀ (segs pre : List String) (p : String) (sz : Nat) (nodes : List TreeNode),
      segs ≠ [] →
      splitSlash p = pre ++ segs →
      WFForest pre nodes → PrefixCond p nodes →
      WFForest pre (insertNode segs pre p sz nodes) ∧
      InsOutcome p nodes (insertNode segs pre p sz nodes) := by
  intro segs
  induction segs with
  | nil => intro pre p sz nodes h _ _ _; exact absurd rfl h
  | cons seg rest ih =>
    intro pre p sz nodes _ hp hwf hpc
    cases rest with
    | nil => exact insert_final_spec seg pre p sz nodes hp hwf hpc
    | cons r rs =>
      have hp' : splitSlash p = (pre ++ [seg]) ++ (r :: rs) := by
        rw [hp]; simp
      have IH : ∀ cs : List TreeNode, WFForest (pre ++ [seg]) cs →
          PrefixCond p cs →
          WFForest (pre ++ [seg])
            (insertNode (r :: rs) (pre ++ [seg]) p sz cs) ∧
          InsOutcome p cs (insertNode (r :: rs) (pre ++ [seg]) p sz cs) :=
        fun cs hw hc => ih (pre ++ [seg]) p sz cs (by simp) hp' hw hc
      by_cases hff : findIsFolder nodes seg = true
      · have heq : insertNode (seg :: r :: rs) pre p sz nodes =
            replaceFirstMatch seg
              (insertNode (r :: rs) (pre ++ [seg]) p sz) nodes := by
          rw [insertNode, if_pos hff]
          all_goals simp
        rw [heq]
        exact replace_spec seg (r :: rs) pre p sz hp IH nodes hwf hpc hff
      · have hff' : findIsFolder nodes seg = false := by
          cases h : findIsFolder nodes seg
          · rfl
          · exact absurd h hff
        have heq : insertNode (seg :: r :: rs) pre p sz nodes =
            nodes ++ [TreeNode.folder seg (joinSlash (pre ++ [seg]))
              (insertNode (r :: rs) (pre ++ [seg]) p sz [])] := by
          rw [insertNode, if_neg hff]
          all_goals simp
        rw [heq]
        exact insert_descend_new_spec seg (r :: rs) pre p sz (by simp) hp IH
          nodes hwf hpc hff'

/-- Accumulated invariant of `buildTree`'s record loop. -/
theorem buildRaw_spec :
    ∀ (rs : List FileLike) (acc : List TreeNode),
      WFForest [] acc →
      (∀ q ∈ collectForest acc, ∀ r ∈ rs,
        ¬ SegLt q r.path ∧ ¬ SegLt r.path q) →
      (rs.map FileLike.path).Pairwise
        (fun a b => ¬ SegLt a b ∧ ¬ SegLt b a) →
      (collectForest acc).Nodup →
      WFForest [] (rs.foldl insertRecord acc) ∧
      (collectForest (rs.foldl insertRecord acc)).Nodup ∧
      ∀ x, x ∈ collectForest (rs.foldl insertRecord acc) ↔
        (x ∈ collectForest acc ∨ x ∈ rs.map FileLike.path) := by
  intro rs
  induction rs with
  | nil =>
    intro acc hwf _ _ hnd
    refine ⟨hwf, hnd, ?_⟩
    intro x
    simp
  | cons r rs ih =>
    intro acc hwf hcross hpw hnd
    rw [List.foldl_cons]
    have hsegs : splitSlash r.path ≠ [] := splitSlash_ne_nil _
    have hpc : PrefixCond r.path acc := by
      intro q hq
      have h := hcross q hq r (List.mem_cons_self _ _)
      exact ⟨h.2, h.1⟩
    obtain ⟨hwf', hout⟩ := insertNode_spec (splitSlash r.path) [] r.path
      r.size acc hsegs (by simp) hwf hpc
    rw [List.map_cons, List.pairwise_cons] at hpw
    have hacc' : ∀ x, x ∈ collectForest (insertRecord acc r) ↔
        (x ∈ collectForest acc ∨ x = r.path) := by
      intro x
      show x ∈ collectForest
        (insertNode (splitSlash r.path) [] r.path r.size acc) ↔ _
      rcases hout with ⟨hm, he⟩ | ⟨_, hperm⟩
      · rw [he]
        constructor
        · exact Or.inl
        · rintro (h | rfl)
          · exact h
          · exact hm
      · rw [hperm.mem_iff]
        simp
    have hcross' : ∀ q ∈ collectForest (insertRecord acc r), ∀ r' ∈ rs,
        ¬ SegLt q r'.path ∧ ¬ SegLt r'.path q := by
      intro q hq r' hr'
      rcases (hacc' q).mp hq with h | rfl
      · exact hcross q h r' (List.mem_cons_of_mem _ hr')
      · exact hpw.1 r'.path (List.mem_map_of_mem FileLike.path hr')
    have hnd' : (collectForest (insertRecord acc r)).Nodup := by
      show (collectForest
        (insertNode (splitSlash r.path) [] r.path r.size acc)).Nodup
      rcases hout with ⟨_, he⟩ | ⟨hm, hperm⟩
      · rw [he]
        exact hnd
      · refine (List.Perm.nodup_iff hperm).mpr ?_
        rw [List.nodup_append]
        refine ⟨hnd, by simp, ?_⟩
        intro x hx hx'
        rw [List.mem_singleton] at hx'
        subst hx'
        exact hm hx
    obtain ⟨hWF, hND, hMEM⟩ := ih (insertRecord acc r) hwf' hcross' hpw.2 hnd'
    refine ⟨hWF, hND, ?_⟩
    intro x
    rw [hMEM x, hacc' x, List.map_cons, List.mem_cons]
    tauto

/-! ### Sorting preserves the collected-leaf multiset -/

theorem collectForest_eq_join_map :
    ∀ l : List TreeNode, collectForest l = (l.map collectFilePaths).flatten := by
  intro l
  induction l with
  | nil => rfl
  | cons t ts ih => rw [collectForest, List.map_cons, List.flatten_cons, ih]

theorem collectForest_perm_of_perm {l1 l2 : List TreeNode}
    (h : List.Perm l1 l2) :
    List.Perm (collectForest l1) (collectForest l2) := by
  rw [collectForest_eq_join_map, collectForest_eq_join_map]
  exact (h.map collectFilePaths).flatten

theorem collect_sort_aux :
    ∀ k : Nat,
      (∀ t : TreeNode, sizeOf t ≤ k →
        List.Perm (collectFilePaths (sortTree t)) (collectFilePaths t)) ∧
      (∀ cs : List TreeNode, sizeOf cs ≤ k →
        List.Perm (collectForest (sortForest cs)) (collectForest cs)) := by
  intro k
  induction k with
  | zero =>
    constructor
    · intro t h; exfalso; cases t <;> simp at h
    · intro cs h; exfalso; cases cs <;> simp at h
  | succ k ih =>
    constructor
    · intro t h
      cases t with
      | file n p s =>
        rw [sortTree]
      | folder n p cs =>
        rw [sortTree, collectFilePaths, collectFilePaths]
        refine List.Perm.trans
          (collectForest_perm_of_perm (List.perm_insertionSort NLE _)) ?_
        apply ih.2
        have h2 : sizeOf (TreeNode.folder n p cs) =
            1 + sizeOf n + sizeOf p + sizeOf cs := by simp
        omega
    · intro cs h
      cases cs with
      | nil => rw [sortForest]
      | cons t ts =>
        rw [sortForest, collectForest, collectForest]
        have h1 : sizeOf (t :: ts) = 1 + sizeOf t + sizeOf ts := by simp
        exact List.Perm.append (ih.1 t (by omega)) (ih.2 ts (by omega))

theorem collect_buildTree_perm (files : List FileLike) :
    List.Perm (collectForest (buildTree files))
      (collectForest (buildTreeRaw files)) := by
  rw [buildTree]
  refine List.Perm.trans
    (collectForest_perm_of_perm (List.perm_insertionSort NLE _)) ?_
  exact (collect_sort_aux (sizeOf (buildTreeRaw files))).2 _ (le_refl _)

/-- C2 (amended): provided no input path is a proper `/`-segment prefix of
another input path, concatenating `collectFilePaths` over all root nodes of
the built tree yields exactly the set of distinct input paths: the
collected leaf paths are duplicate-free and membership in them coincides
with membership in the input path list. -/
theorem C2_amended_roundtrip (rs : List FileLike)
    (hfree : (rs.map FileLike.path).Pairwise
      (fun a b => segBelow a b = false ∧ segBelow b a = false)) :
    (collectForest (buildTree rs)).Nodup ∧
    ∀ x, x ∈ collectForest (buildTree rs) ↔ x ∈ rs.map FileLike.path := by
  have hfree' : (rs.map FileLike.path).Pairwise
      (fun a b => ¬ SegLt a b ∧ ¬ SegLt b a) := by
    refine hfree.imp ?_
    intro a b hab
    exact ⟨(segBelow_false_iff a b).mp hab.1, (segBelow_false_iff b a).mp hab.2⟩
  obtain ⟨hWF, hND, hMEM⟩ := buildRaw_spec rs [] ⟨by simp, by simp⟩
    (by intro q hq; exact absurd hq (List.not_mem_nil q)) hfree'
    (by show ([] : List String).Nodup; simp)
  have hperm := collect_buildTree_perm rs
  constructor
  · exact (List.Perm.nodup_iff hperm).mpr hND
  · intro x
    rw [hperm.mem_iff,
      show buildTreeRaw rs = List.foldl insertRecord [] rs from rfl, hMEM x]
    have h0 : collectForest ([] : List TreeNode) = [] := rfl
    rw [h0]
    simp

/-- C2 witness: the amended round-trip at a concrete prefix-free input. -/
theorem C2_amended_roundtrip_witness :
    (([⟨"a/b", 1⟩, ⟨"c", 2⟩] : List FileLike).map FileLike.path).Pairwise
      (fun a b => segBelow a b = false ∧ segBelow b a = false) ∧
    (collectForest (buildTree [⟨"a/b", 1⟩, ⟨"c", 2⟩])).Nodup ∧
    ("c" ∈ collectForest (buildTree [⟨"a/b", 1⟩, ⟨"c", 2⟩]) ↔
      "c" ∈ ([⟨"a/b", 1⟩, ⟨"c", 2⟩] : List FileLike).map FileLike.path) := by
  have hpf : (([⟨"a/b", 1⟩, ⟨"c", 2⟩] : List FileLike).map
      FileLike.path).Pairwise
      (fun a b => segBelow a b = false ∧ segBelow b a = false) := by decide
  obtain ⟨h1, h2⟩ := C2_amended_roundtrip _ hpf
  exact ⟨hpf, h1, h2 "c"⟩

end CodeParse
